import Mathlib

/-!
Verification of the DBM memory pool interface (`src/dbm/dbm_mempool.h`).

The header declares the pool API (`dbm_mempool_host_malloc`,
`dbm_mempool_device_malloc`, `dbm_mempool_free`, `dbm_mempool_clear`) and
defines three C++ template wrappers (`dbm_mem_alloc`, `dbm_mem_calloc`,
`dbm_mem_realloc`) that pass through to the C library's `malloc`, `calloc`
and `realloc`.

The pool implementation itself (dbm_mempool.c) is not part of the source
fragment, so the pool semantics below are modelled from the specification:
per-domain registries of pooled blocks, a minimum-capacity ("first block
whose recorded size is at least the request") match, retained capacity
metadata for in-use blocks, and a clear operation that releases every
pooled block via the raw allocator's free.

Machine addresses are modelled as abstract natural numbers; the raw
allocator hands out fresh addresses in order and may fail according to an
explicit schedule of outcomes carried in the state.
-/

namespace DbmMempool

/-- Allocation domain: host memory or device (accelerator) memory. -/
inductive Domain where
  | host : Domain
  | dev : Domain

instance : DecidableEq Domain := fun a b => by
  cases a <;> cases b <;> first
    | exact isTrue rfl
    | exact isFalse (by intro h; exact Domain.noConfusion h)

/-- A pooled block: an abstract address together with its recorded
capacity in bytes. -/
structure Block where
  addr : Nat
  size : Nat
deriving DecidableEq

/-- Modelled from the spec: the process-wide state of the memory pool
(dbm_mempool.c is absent from the source fragment; only its header is
present).  Each domain owns a registry of currently pooled (free,
reusable) blocks and a metadata list of in-use blocks with their retained
capacities.  Ghost fields record the raw allocator's activity: the number
of raw allocation calls, the total bytes successfully obtained, the log of
successful miss allocations and the addresses released via raw_free. -/
structure PoolState where
  hostReg : List Block
  devReg : List Block
  hostUsed : List Block
  devUsed : List Block
  nextAddr : Nat
  schedule : List Bool
  rawCalls : Nat
  rawBytes : Nat
  missLog : List Nat
  rawFreed : List Nat
deriving DecidableEq

/-- The registry of a domain. -/
def reg : Domain → PoolState → List Block
  | .host, st => st.hostReg
  | .dev, st => st.devReg

/-- The in-use metadata list of a domain. -/
def used : Domain → PoolState → List Block
  | .host, st => st.hostUsed
  | .dev, st => st.devUsed

/-- Replace the registry of a domain. -/
def setReg : Domain → List Block → PoolState → PoolState
  | .host, l, st => { st with hostReg := l }
  | .dev, l, st => { st with devReg := l }

/-- Replace the in-use metadata list of a domain. -/
def setUsed : Domain → List Block → PoolState → PoolState
  | .host, l, st => { st with hostUsed := l }
  | .dev, l, st => { st with devUsed := l }

/-- The size-match predicate: a pooled block qualifies for a request when
its recorded size is greater than or equal to the requested size. -/
def fits (size : Nat) (b : Block) : Bool :=
  decide (size ≤ b.size)

/-- Modelled from the spec: the raw allocator adapter invoked on a pool
miss.  It consumes one entry of the outcome schedule (an empty schedule
means success); on success it hands out the next fresh address for exactly
`size` bytes and records the block as in use with capacity `size`. -/
def rawAlloc (d : Domain) (size : Nat) (st : PoolState) :
    Option Nat × PoolState :=
  let st1 := { st with schedule := st.schedule.tail, rawCalls := st.rawCalls + 1 }
  if st.schedule.headD true then
    (some st.nextAddr,
      setUsed d (⟨st.nextAddr, size⟩ :: used d st1)
        { st1 with nextAddr := st1.nextAddr + 1,
                   rawBytes := st1.rawBytes + size,
                   missLog := st1.missLog ++ [size] })
  else
    (none, st1)

/-- Modelled from the spec: `pool_malloc`.  Search the domain's registry
for the first pooled block whose recorded size is at least `size`
(first-fit, one acceptable realization of the spec's open policy); on a
hit remove it from the registry, record it as in use and return its
address.  On a miss fall through to the raw allocator. -/
def pool_malloc (d : Domain) (size : Nat) (st : PoolState) :
    Option Nat × PoolState :=
  match (reg d st).find? (fits size) with
  | some b =>
      (some b.addr,
        setUsed d (b :: used d st) (setReg d ((reg d st).eraseP (fits size)) st))
  | none => rawAlloc d size st

/-- Modelled from the spec: `pool_free`.  The caller supplies only the
pointer; the implementation determines the block's domain and true
capacity from the metadata retained at allocation time, and inserts the
block into that domain's registry.  No raw_free is invoked.  A pointer not
found in either domain's metadata is a caller error; the model leaves the
state unchanged. -/
def dbm_mempool_free (p : Nat) (st : PoolState) : PoolState :=
  match st.hostUsed.find? (fun b => b.addr == p) with
  | some b =>
      { st with hostUsed := st.hostUsed.eraseP (fun b => b.addr == p),
                hostReg := b :: st.hostReg }
  | none =>
      match st.devUsed.find? (fun b => b.addr == p) with
      | some b =>
          { st with devUsed := st.devUsed.eraseP (fun b => b.addr == p),
                    devReg := b :: st.devReg }
      | none => st

/-- Modelled from the spec: `pool_clear`.  For every domain, every block
currently in that domain's registry is released via raw_free, then the
registries are emptied. -/
def dbm_mempool_clear (st : PoolState) : PoolState :=
  { st with hostReg := [], devReg := [],
            rawFreed := st.rawFreed ++ st.hostReg.map Block.addr
                          ++ st.devReg.map Block.addr }

/-- The header's host-domain entry point, specialized from the
domain-generic pool malloc. -/
def dbm_mempool_host_malloc (size : Nat) (st : PoolState) :
    Option Nat × PoolState :=
  pool_malloc .host size st

/-- The header's device-domain entry point. -/
def dbm_mempool_device_malloc (size : Nat) (st : PoolState) :
    Option Nat × PoolState :=
  pool_malloc .dev size st

/-- A pool operation, for reasoning about arbitrary call sequences. -/
inductive Op where
  | malloc : Domain → Nat → Op
  | free : Nat → Op
  | clear : Op

/-- One step of the pool state machine. -/
def step (st : PoolState) : Op → PoolState
  | .malloc d s => (pool_malloc d s st).2
  | .free p => dbm_mempool_free p st
  | .clear => dbm_mempool_clear st

/-- Run a sequence of pool operations from a state. -/
def run (ops : List Op) (st : PoolState) : PoolState :=
  ops.foldl step st

/-- The lazily created empty pool, with a given raw-allocator outcome
schedule. -/
def init (sched : List Bool) : PoolState :=
  ⟨[], [], [], [], 0, sched, 0, 0, [], []⟩

/-- The addresses of a block list. -/
def addrsOf (l : List Block) : List Nat :=
  l.map Block.addr

/-- All addresses tracked by the pool: both registries and both in-use
metadata lists. -/
def allAddrs (st : PoolState) : List Nat :=
  addrsOf st.hostReg ++ addrsOf st.devReg ++ addrsOf st.hostUsed
    ++ addrsOf st.devUsed

/-- Well-formedness of a pool state: no address is tracked twice (in
particular no block is both pooled and in use, and no block is shared
across domains), and every tracked address is below the fresh-address
counter. -/
def WF (st : PoolState) : Prop :=
  (allAddrs st).Nodup ∧ ∀ a ∈ allAddrs st, a < st.nextAddr

instance (st : PoolState) : Decidable (WF st) := by
  unfold WF
  exact instDecidableAnd

/-!
Model of the C library allocation primitives and of the template wrappers
`dbm_mem_alloc`, `dbm_mem_calloc`, `dbm_mem_realloc` defined in the
header.  The wrappers are in the source; the C library primitives are
external and embedded following the C standard's contracts.  The state
carries the pool registries as passive fields so that the wrappers'
non-interaction with the pool is an actual theorem about the model.
-/

/-- The range bound of the C size type (64-bit size_t). -/
def SIZE_BOUND : Nat := 2 ^ 64

/-- The byte value used to model indeterminate memory contents, to
distinguish them from calloc's guaranteed zeros. -/
def junkByte : Nat := 170

/-- A C heap block: an abstract address and its byte contents. -/
structure CBlock where
  addr : Nat
  bytes : List Nat
deriving DecidableEq

/-- The C heap state: the live blocks, a fresh-address counter, an outcome
schedule for the underlying allocator, and the pool registries of both
domains carried passively (the C library never touches them). -/
structure CMem where
  blocks : List CBlock
  nextAddr : Nat
  schedule : List Bool
  poolHostReg : List Block
  poolDevReg : List Block
deriving DecidableEq

/-- The C library's `malloc`, per its standard contract: on success a
fresh block of `n` bytes with indeterminate contents, on failure a null
result with the heap unchanged. -/
def c_malloc (st : CMem) (n : Nat) : Option Nat × CMem :=
  if st.schedule.headD true then
    (some st.nextAddr,
      { st with blocks := ⟨st.nextAddr, List.replicate n junkByte⟩ :: st.blocks,
                nextAddr := st.nextAddr + 1,
                schedule := st.schedule.tail })
  else
    (none, { st with schedule := st.schedule.tail })

/-- The C library's `calloc`, per its standard contract: fails (returns
null) when `nitems * n` overflows the size type; otherwise on success a
fresh block of `nitems * n` bytes, every byte zero. -/
def c_calloc (st : CMem) (nitems n : Nat) : Option Nat × CMem :=
  if SIZE_BOUND ≤ nitems * n then
    (none, st)
  else if st.schedule.headD true then
    (some st.nextAddr,
      { st with blocks := ⟨st.nextAddr, List.replicate (nitems * n) 0⟩ :: st.blocks,
                nextAddr := st.nextAddr + 1,
                schedule := st.schedule.tail })
  else
    (none, { st with schedule := st.schedule.tail })

/-- The C library's `realloc`, per its standard contract: on success the
first `min (old size) n` bytes are preserved and the rest (if grown) are
indeterminate; on failure it returns null and the original block is left
valid and untouched. -/
def c_realloc (st : CMem) (p : Nat) (n : Nat) : Option Nat × CMem :=
  match st.blocks.find? (fun b => b.addr == p) with
  | none => (none, st)
  | some b =>
      if st.schedule.headD true then
        (some st.nextAddr,
          { st with
              blocks := ⟨st.nextAddr,
                          b.bytes.take n
                            ++ List.replicate (n - b.bytes.length) junkByte⟩
                        :: st.blocks.eraseP (fun b => b.addr == p),
              nextAddr := st.nextAddr + 1,
              schedule := st.schedule.tail })
      else
        (none, { st with schedule := st.schedule.tail })

/-- From the source: `dbm_mem_alloc` returns `(DataType)malloc(N)` — a
typecast pass-through of exactly `N` bytes to the C library's malloc.  The
typecast is the identity on abstract addresses. -/
def dbm_mem_alloc (st : CMem) (N : Nat) : Option Nat × CMem :=
  c_malloc st N

/-- From the source: `dbm_mem_calloc` returns `(DataType)calloc(nitems, N)`
— a typecast pass-through to the C library's calloc. -/
def dbm_mem_calloc (st : CMem) (nitems N : Nat) : Option Nat × CMem :=
  c_calloc st nitems N

/-- From the source: `dbm_mem_realloc` returns `(DataType)realloc(ptr, N)`
— a typecast pass-through to the C library's realloc. -/
def dbm_mem_realloc (st : CMem) (p : Nat) (N : Nat) : Option Nat × CMem :=
  c_realloc st p N

/-- Look up the contents of the block at an address. -/
def contentsAt (st : CMem) (p : Nat) : Option (List Nat) :=
  (st.blocks.find? (fun b => b.addr == p)).map CBlock.bytes

/-!  Helper lemmas. -/

theorem perm_cons_eraseP_of_find? {α : Type} {p : α → Bool} {l : List α}
    {b : α} (h : l.find? p = some b) : l.Perm (b :: l.eraseP p) := by
  induction l with
  | nil => simp at h
  | cons a t ih =>
    by_cases hp : p a
    · rw [List.find?_cons_of_pos _ hp] at h
      cases h
      rw [List.eraseP_cons_of_pos hp]
    · rw [List.find?_cons_of_neg _ hp] at h
      rw [List.eraseP_cons_of_neg hp]
      exact ((ih h).cons a).trans (List.Perm.swap b a _)

theorem perm_moveA {a : Nat} {A A' : List Nat} (B C D : List Nat)
    (hA : A.Perm (a :: A')) :
    (A' ++ B ++ (a :: C) ++ D).Perm (A ++ B ++ C ++ D) := by
  have h1 : ((A' ++ B) ++ (a :: C)) ++ D |>.Perm ((a :: ((A' ++ B) ++ C)) ++ D) :=
    List.perm_middle.append_right D
  have h2 : ((A ++ B) ++ C) ++ D |>.Perm ((((a :: A') ++ B) ++ C) ++ D) :=
    ((hA.append_right B).append_right C).append_right D
  exact h1.trans h2.symm

theorem perm_moveB {a : Nat} {B B' : List Nat} (A C D : List Nat)
    (hB : B.Perm (a :: B')) :
    (A ++ B' ++ C ++ (a :: D)).Perm (A ++ B ++ C ++ D) := by
  have h1 : (((A ++ B') ++ C) ++ (a :: D)).Perm (a :: (((A ++ B') ++ C) ++ D)) :=
    List.perm_middle
  have h2 : (A ++ (a :: B')).Perm (a :: (A ++ B')) := List.perm_middle
  have h3 : ((A ++ B) ++ C) ++ D |>.Perm (((a :: (A ++ B')) ++ C) ++ D) :=
    (((hB.append_left A).trans h2).append_right C).append_right D
  exact h1.trans h3.symm

theorem perm_moveC {a : Nat} {C C' : List Nat} (A B D : List Nat)
    (hC : C.Perm (a :: C')) :
    ((a :: A) ++ B ++ C' ++ D).Perm (A ++ B ++ C ++ D) := by
  have h1 : ((A ++ B) ++ (a :: C')).Perm (a :: ((A ++ B) ++ C')) :=
    List.perm_middle
  have h2 : ((A ++ B) ++ C) ++ D |>.Perm ((a :: ((A ++ B) ++ C')) ++ D) :=
    ((hC.append_left (A ++ B)).trans h1).append_right D
  exact h2.symm

theorem perm_moveD {a : Nat} {D D' : List Nat} (A B C : List Nat)
    (hD : D.Perm (a :: D')) :
    (A ++ (a :: B) ++ C ++ D').Perm (A ++ B ++ C ++ D) := by
  have h1 : (A ++ (a :: B)).Perm (a :: (A ++ B)) := List.perm_middle
  have h2 : ((A ++ (a :: B)) ++ C) ++ D' |>.Perm ((a :: ((A ++ B) ++ C)) ++ D') :=
    (h1.append_right C).append_right D'
  have h3 : ((A ++ B) ++ C) ++ D |>.Perm (((A ++ B) ++ C) ++ (a :: D')) :=
    hD.append_left _
  have h4 : (((A ++ B) ++ C) ++ (a :: D')).Perm (a :: (((A ++ B) ++ C) ++ D')) :=
    List.perm_middle
  exact h2.trans (h3.trans h4).symm

theorem perm_insertC (A B C D : List Nat) (a : Nat) :
    (A ++ B ++ (a :: C) ++ D).Perm (a :: (A ++ B ++ C ++ D)) :=
  List.perm_middle.append_right D

theorem perm_insertD (A B C D : List Nat) (a : Nat) :
    (A ++ B ++ C ++ (a :: D)).Perm (a :: (A ++ B ++ C ++ D)) :=
  List.perm_middle

theorem fits_iff {s : Nat} {b : Block} : fits s b = true ↔ s ≤ b.size := by
  simp [fits]

theorem pool_malloc_hit {d : Domain} {s : Nat} {st : PoolState} {b : Block}
    (hf : (reg d st).find? (fits s) = some b) :
    pool_malloc d s st =
      (some b.addr,
        setUsed d (b :: used d st)
          (setReg d ((reg d st).eraseP (fits s)) st)) := by
  unfold pool_malloc
  rw [hf]

theorem pool_malloc_miss {d : Domain} {s : Nat} {st : PoolState}
    (hf : (reg d st).find? (fits s) = none) :
    pool_malloc d s st = rawAlloc d s st := by
  unfold pool_malloc
  rw [hf]

theorem mempool_free_host {st : PoolState} {p : Nat} {b : Block}
    (hf : st.hostUsed.find? (fun x => x.addr == p) = some b) :
    dbm_mempool_free p st =
      { st with hostUsed := st.hostUsed.eraseP (fun x => x.addr == p),
                hostReg := b :: st.hostReg } := by
  unfold dbm_mempool_free
  rw [hf]

theorem mempool_free_dev {st : PoolState} {p : Nat} {b : Block}
    (hf : st.hostUsed.find? (fun x => x.addr == p) = none)
    (hg : st.devUsed.find? (fun x => x.addr == p) = some b) :
    dbm_mempool_free p st =
      { st with devUsed := st.devUsed.eraseP (fun x => x.addr == p),
                devReg := b :: st.devReg } := by
  unfold dbm_mempool_free
  rw [hf, hg]

theorem mempool_free_miss {st : PoolState} {p : Nat}
    (hf : st.hostUsed.find? (fun x => x.addr == p) = none)
    (hg : st.devUsed.find? (fun x => x.addr == p) = none) :
    dbm_mempool_free p st = st := by
  unfold dbm_mempool_free
  rw [hf, hg]

theorem wf_step (st : PoolState) (op : Op) (h : WF st) : WF (step st op) := by
  obtain ⟨hnd, hlt⟩ := h
  cases op with
  | malloc d s =>
    show WF (pool_malloc d s st).2
    cases hf : (reg d st).find? (fits s) with
    | some b =>
      have hperm0 : (addrsOf (reg d st)).Perm
          (b.addr :: addrsOf ((reg d st).eraseP (fits s))) := by
        simpa [addrsOf] using (perm_cons_eraseP_of_find? hf).map Block.addr
      rw [pool_malloc_hit hf]
      cases d with
      | host =>
        have hp : (allAddrs
            (setUsed .host (b :: used .host st)
              (setReg .host ((reg .host st).eraseP (fits s)) st))).Perm
            (allAddrs st) :=
          perm_moveA (addrsOf st.devReg) (addrsOf st.hostUsed)
            (addrsOf st.devUsed) hperm0
        exact ⟨(hp.nodup_iff).mpr hnd, fun a ha => hlt a (hp.subset ha)⟩
      | dev =>
        have hp : (allAddrs
            (setUsed .dev (b :: used .dev st)
              (setReg .dev ((reg .dev st).eraseP (fits s)) st))).Perm
            (allAddrs st) :=
          perm_moveB (addrsOf st.hostReg) (addrsOf st.hostUsed)
            (addrsOf st.devUsed) hperm0
        exact ⟨(hp.nodup_iff).mpr hnd, fun a ha => hlt a (hp.subset ha)⟩
    | none =>
      rw [pool_malloc_miss hf]
      unfold rawAlloc
      by_cases hs : st.schedule.headD true = true
      · rw [if_pos hs]
        have hfresh : st.nextAddr ∉ allAddrs st := fun hmem =>
          absurd (hlt _ hmem) (lt_irrefl st.nextAddr)
        have hnd2 : (st.nextAddr :: allAddrs st).Nodup :=
          List.nodup_cons.mpr ⟨hfresh, hnd⟩
        cases d with
        | host =>
          have hp := perm_insertC (addrsOf st.hostReg) (addrsOf st.devReg)
            (addrsOf st.hostUsed) (addrsOf st.devUsed) st.nextAddr
          refine ⟨(hp.nodup_iff).mpr hnd2, fun a ha => ?_⟩
          have := hp.subset ha
          rcases List.mem_cons.mp this with h1 | h1
          · exact h1 ▸ Nat.lt_succ_self _
          · exact Nat.lt_succ_of_lt (hlt a h1)
        | dev =>
          have hp := perm_insertD (addrsOf st.hostReg) (addrsOf st.devReg)
            (addrsOf st.hostUsed) (addrsOf st.devUsed) st.nextAddr
          refine ⟨(hp.nodup_iff).mpr hnd2, fun a ha => ?_⟩
          have := hp.subset ha
          rcases List.mem_cons.mp this with h1 | h1
          · exact h1 ▸ Nat.lt_succ_self _
          · exact Nat.lt_succ_of_lt (hlt a h1)
      · rw [if_neg hs]
        exact ⟨hnd, hlt⟩
  | free p =>
    show WF (dbm_mempool_free p st)
    cases hf : st.hostUsed.find? (fun x => x.addr == p) with
    | some b =>
      have hperm0 : (addrsOf st.hostUsed).Perm
          (b.addr :: addrsOf (st.hostUsed.eraseP (fun x => x.addr == p))) := by
        simpa [addrsOf] using (perm_cons_eraseP_of_find? hf).map Block.addr
      rw [mempool_free_host hf]
      have hp := perm_moveC (addrsOf st.hostReg) (addrsOf st.devReg)
        (addrsOf st.devUsed) hperm0
      exact ⟨(hp.nodup_iff).mpr hnd, fun a ha => hlt a (hp.subset ha)⟩
    | none =>
      cases hg : st.devUsed.find? (fun x => x.addr == p) with
      | some b =>
        have hperm0 : (addrsOf st.devUsed).Perm
            (b.addr :: addrsOf (st.devUsed.eraseP (fun x => x.addr == p))) := by
          simpa [addrsOf] using (perm_cons_eraseP_of_find? hg).map Block.addr
        rw [mempool_free_dev hf hg]
        have hp := perm_moveD (addrsOf st.hostReg) (addrsOf st.devReg)
          (addrsOf st.hostUsed) hperm0
        exact ⟨(hp.nodup_iff).mpr hnd, fun a ha => hlt a (hp.subset ha)⟩
      | none =>
        rw [mempool_free_miss hf hg]
        exact ⟨hnd, hlt⟩
  | clear =>
    show WF (dbm_mempool_clear st)
    have hsub : (addrsOf st.hostUsed ++ addrsOf st.devUsed).Sublist (allAddrs st) := by
      unfold allAddrs
      rw [List.append_assoc (addrsOf st.hostReg ++ addrsOf st.devReg)]
      exact List.sublist_append_right _ _
    exact ⟨hsub.nodup hnd, fun a ha => hlt a (hsub.subset ha)⟩

theorem wf_run_from (ops : List Op) :
    ∀ st : PoolState, WF st → WF (run ops st) := by
  induction ops with
  | nil => intro st h; exact h
  | cons op t ih => intro st h; exact ih _ (wf_step st op h)

theorem wf_init (sched : List Bool) : WF (init sched) := by
  constructor
  · simp [allAddrs, addrsOf, init]
  · intro a ha
    simp [allAddrs, addrsOf, init] at ha

theorem wf_run (sched : List Bool) (ops : List Op) :
    WF (run ops (init sched)) :=
  wf_run_from ops _ (wf_init sched)

theorem setReg_rawCalls (d : Domain) (l : List Block) (st : PoolState) :
    (setReg d l st).rawCalls = st.rawCalls := by cases d <;> rfl

theorem setUsed_rawCalls (d : Domain) (l : List Block) (st : PoolState) :
    (setUsed d l st).rawCalls = st.rawCalls := by cases d <;> rfl

theorem setReg_rawBytes (d : Domain) (l : List Block) (st : PoolState) :
    (setReg d l st).rawBytes = st.rawBytes := by cases d <;> rfl

theorem setUsed_rawBytes (d : Domain) (l : List Block) (st : PoolState) :
    (setUsed d l st).rawBytes = st.rawBytes := by cases d <;> rfl

theorem setReg_missLog (d : Domain) (l : List Block) (st : PoolState) :
    (setReg d l st).missLog = st.missLog := by cases d <;> rfl

theorem setUsed_missLog (d : Domain) (l : List Block) (st : PoolState) :
    (setUsed d l st).missLog = st.missLog := by cases d <;> rfl

theorem setReg_rawFreed (d : Domain) (l : List Block) (st : PoolState) :
    (setReg d l st).rawFreed = st.rawFreed := by cases d <;> rfl

theorem setUsed_rawFreed (d : Domain) (l : List Block) (st : PoolState) :
    (setUsed d l st).rawFreed = st.rawFreed := by cases d <;> rfl

theorem setReg_nextAddr (d : Domain) (l : List Block) (st : PoolState) :
    (setReg d l st).nextAddr = st.nextAddr := by cases d <;> rfl

theorem setUsed_nextAddr (d : Domain) (l : List Block) (st : PoolState) :
    (setUsed d l st).nextAddr = st.nextAddr := by cases d <;> rfl

theorem setReg_schedule (d : Domain) (l : List Block) (st : PoolState) :
    (setReg d l st).schedule = st.schedule := by cases d <;> rfl

theorem setUsed_schedule (d : Domain) (l : List Block) (st : PoolState) :
    (setUsed d l st).schedule = st.schedule := by cases d <;> rfl

theorem reg_setUsed (d e : Domain) (l : List Block) (st : PoolState) :
    reg d (setUsed e l st) = reg d st := by cases d <;> cases e <;> rfl

theorem used_setReg (d e : Domain) (l : List Block) (st : PoolState) :
    used d (setReg e l st) = used d st := by cases d <;> cases e <;> rfl

theorem reg_setReg_same (d : Domain) (l : List Block) (st : PoolState) :
    reg d (setReg d l st) = l := by cases d <;> rfl

theorem used_setUsed_same (d : Domain) (l : List Block) (st : PoolState) :
    used d (setUsed d l st) = l := by cases d <;> rfl

theorem reg_clear (d : Domain) (st : PoolState) :
    reg d (dbm_mempool_clear st) = [] := by cases d <;> rfl

theorem malloc_find?_of_exists {d : Domain} {s : Nat} {st : PoolState}
    (hex : ∃ b ∈ reg d st, s ≤ b.size) :
    ∃ b, (reg d st).find? (fits s) = some b := by
  obtain ⟨b, hb, hs⟩ := hex
  have : ((reg d st).find? (fits s)).isSome :=
    List.find?_isSome.mpr ⟨b, hb, fits_iff.mpr hs⟩
  exact Option.isSome_iff_exists.mp this

theorem rawBytes_missLog_step (st : PoolState) (op : Op)
    (h : st.rawBytes = st.missLog.sum) :
    (step st op).rawBytes = (step st op).missLog.sum := by
  cases op with
  | malloc d s =>
    show ((pool_malloc d s st).2).rawBytes = ((pool_malloc d s st).2).missLog.sum
    cases hf : (reg d st).find? (fits s) with
    | some b =>
      rw [pool_malloc_hit hf]
      simp [setUsed_rawBytes, setReg_rawBytes, setUsed_missLog, setReg_missLog, h]
    | none =>
      rw [pool_malloc_miss hf]
      unfold rawAlloc
      by_cases hs : st.schedule.headD true = true
      · rw [if_pos hs]
        simp [setUsed_rawBytes, setUsed_missLog, h]
      · rw [if_neg hs]
        simpa using h
  | free p =>
    show (dbm_mempool_free p st).rawBytes = (dbm_mempool_free p st).missLog.sum
    unfold dbm_mempool_free
    split
    · simpa using h
    · split
      · simpa using h
      · simpa using h
  | clear =>
    simpa [step, dbm_mempool_clear] using h

theorem rawBytes_missLog_run (ops : List Op) :
    ∀ st : PoolState, st.rawBytes = st.missLog.sum →
      (run ops st).rawBytes = (run ops st).missLog.sum := by
  induction ops with
  | nil => intro st h; exact h
  | cons op t ih => intro st h; exact ih _ (rawBytes_missLog_step st op h)

theorem wf_parts {st : PoolState} (h : WF st) :
    (addrsOf st.hostReg).Disjoint (addrsOf st.devReg) ∧
    (addrsOf st.hostReg).Disjoint (addrsOf st.hostUsed) ∧
    (addrsOf st.hostReg).Disjoint (addrsOf st.devUsed) ∧
    (addrsOf st.devReg).Disjoint (addrsOf st.hostUsed) ∧
    (addrsOf st.devReg).Disjoint (addrsOf st.devUsed) ∧
    (addrsOf st.hostUsed).Disjoint (addrsOf st.devUsed) ∧
    (addrsOf st.hostReg).Nodup ∧ (addrsOf st.devReg).Nodup := by
  obtain ⟨hnd, _⟩ := h
  unfold allAddrs at hnd
  simp only [List.nodup_append, List.disjoint_append_left,
    List.disjoint_append_right] at hnd
  tauto

theorem setUsed_hostReg (d : Domain) (l : List Block) (st : PoolState) :
    (setUsed d l st).hostReg = st.hostReg := by cases d <;> rfl

theorem setUsed_devReg (d : Domain) (l : List Block) (st : PoolState) :
    (setUsed d l st).devReg = st.devReg := by cases d <;> rfl

theorem setReg_hostUsed (d : Domain) (l : List Block) (st : PoolState) :
    (setReg d l st).hostUsed = st.hostUsed := by cases d <;> rfl

theorem setReg_devUsed (d : Domain) (l : List Block) (st : PoolState) :
    (setReg d l st).devUsed = st.devUsed := by cases d <;> rfl

theorem bound_hostReg {st : PoolState} (hwf : WF st) {a : Nat}
    (ha : a ∈ addrsOf st.hostReg) : a < st.nextAddr :=
  hwf.2 a (by
    unfold allAddrs
    exact List.mem_append_left _ (List.mem_append_left _ (List.mem_append_left _ ha)))

theorem bound_devReg {st : PoolState} (hwf : WF st) {a : Nat}
    (ha : a ∈ addrsOf st.devReg) : a < st.nextAddr :=
  hwf.2 a (by
    unfold allAddrs
    exact List.mem_append_left _ (List.mem_append_left _ (List.mem_append_right _ ha)))

theorem bound_hostUsed {st : PoolState} (hwf : WF st) {a : Nat}
    (ha : a ∈ addrsOf st.hostUsed) : a < st.nextAddr :=
  hwf.2 a (by
    unfold allAddrs
    exact List.mem_append_left _ (List.mem_append_right _ ha))

theorem bound_devUsed {st : PoolState} (hwf : WF st) {a : Nat}
    (ha : a ∈ addrsOf st.devUsed) : a < st.nextAddr :=
  hwf.2 a (by unfold allAddrs; exact List.mem_append_right _ ha)

theorem eraseP_not_mem_of_nodup {l : List Block} {q : Block → Bool} {b : Block}
    (hf : l.find? q = some b) (hnd : (addrsOf l).Nodup) :
    b.addr ∉ addrsOf (l.eraseP q) := by
  have hperm : (addrsOf l).Perm (b.addr :: addrsOf (l.eraseP q)) := by
    simpa [addrsOf] using (perm_cons_eraseP_of_find? hf).map Block.addr
  have h2 : (b.addr :: addrsOf (l.eraseP q)).Nodup := (hperm.nodup_iff).mp hnd
  exact (List.nodup_cons.mp h2).1

theorem addr_mem_of_mem {b : Block} {l : List Block} (h : b ∈ l) :
    b.addr ∈ addrsOf l :=
  List.mem_map_of_mem Block.addr h

theorem malloc_returns_spec {d : Domain} {s : Nat} {st : PoolState}
    {p : Nat} {st2 : PoolState} (hwf : WF st)
    (h : pool_malloc d s st = (some p, st2)) :
    p ∉ addrsOf st2.hostReg ∧ p ∉ addrsOf st2.devReg ∧
    p ∈ addrsOf (used d st2) := by
  obtain ⟨hd1, hd2, hd3, hd4, hd5, hd6, hn1, hn2⟩ := wf_parts hwf
  cases hf : (reg d st).find? (fits s) with
  | some b =>
    rw [pool_malloc_hit hf] at h
    injection h with h1 h2
    injection h1 with h1
    subst h1
    subst h2
    have hbmem : b ∈ reg d st := List.mem_of_find?_eq_some hf
    refine ⟨?_, ?_, ?_⟩
    · cases d with
      | host => exact eraseP_not_mem_of_nodup hf hn1
      | dev => exact fun hmem => hd1 hmem (addr_mem_of_mem hbmem)
    · cases d with
      | host => exact fun hmem => hd1 (addr_mem_of_mem hbmem) hmem
      | dev => exact eraseP_not_mem_of_nodup hf hn2
    · rw [used_setUsed_same]
      exact addr_mem_of_mem (List.mem_cons_self b _)
  | none =>
    rw [pool_malloc_miss hf] at h
    unfold rawAlloc at h
    by_cases hs : st.schedule.headD true = true
    · rw [if_pos hs] at h
      injection h with h1 h2
      injection h1 with h1
      subst h1
      subst h2
      refine ⟨?_, ?_, ?_⟩
      · rw [setUsed_hostReg]
        exact fun hmem => absurd (bound_hostReg hwf hmem) (lt_irrefl _)
      · rw [setUsed_devReg]
        exact fun hmem => absurd (bound_devReg hwf hmem) (lt_irrefl _)
      · rw [used_setUsed_same]
        exact addr_mem_of_mem (List.mem_cons_self _ _)
    · rw [if_neg hs] at h
      injection h with h1 h2
      exact Option.noConfusion h1

theorem malloc_not_inuse {d : Domain} {s p : Nat} {st : PoolState}
    (hwf : WF st)
    (hp : p ∈ addrsOf st.hostUsed ∨ p ∈ addrsOf st.devUsed) :
    (pool_malloc d s st).1 ≠ some p := by
  obtain ⟨hd1, hd2, hd3, hd4, hd5, hd6, hn1, hn2⟩ := wf_parts hwf
  cases hf : (reg d st).find? (fits s) with
  | some b =>
    rw [pool_malloc_hit hf]
    intro hcontra
    have hbp : b.addr = p := Option.some.inj hcontra
    have hbmem : b ∈ reg d st := List.mem_of_find?_eq_some hf
    have hbr := addr_mem_of_mem hbmem
    cases d with
    | host =>
      rcases hp with hp | hp
      · exact hd2 hbr (hbp ▸ hp)
      · exact hd3 hbr (hbp ▸ hp)
    | dev =>
      rcases hp with hp | hp
      · exact hd4 hbr (hbp ▸ hp)
      · exact hd5 hbr (hbp ▸ hp)
  | none =>
    rw [pool_malloc_miss hf]
    unfold rawAlloc
    by_cases hs : st.schedule.headD true = true
    · rw [if_pos hs]
      intro hcontra
      have hnp : st.nextAddr = p := Option.some.inj hcontra
      rcases hp with hp | hp
      · exact absurd (bound_hostUsed hwf hp) (hnp ▸ lt_irrefl _)
      · exact absurd (bound_devUsed hwf hp) (hnp ▸ lt_irrefl _)
    · rw [if_neg hs]
      intro hcontra
      exact Option.noConfusion hcontra

theorem malloc_after_free_head {d : Domain} {Sp : Nat} {st3 : PoolState}
    {b : Block} {l : List Block} (hreg : reg d st3 = b :: l)
    (hfits : fits Sp b = true) :
    (pool_malloc d Sp st3).1 = some b.addr := by
  have hf : (reg d st3).find? (fits Sp) = some b := by
    rw [hreg, List.find?_cons_of_pos _ hfits]
  rw [pool_malloc_hit hf]

theorem free_cons_host {st1 : PoolState} {b : Block} {rest : List Block}
    (hu : st1.hostUsed = b :: rest) :
    reg .host (dbm_mempool_free b.addr st1) = b :: st1.hostReg := by
  have hfind : st1.hostUsed.find? (fun x => x.addr == b.addr) = some b := by
    rw [hu, List.find?_cons_of_pos _ (by simp)]
  rw [mempool_free_host hfind]
  rfl

theorem free_cons_dev {st1 : PoolState} {b : Block} {rest : List Block}
    (hu : st1.devUsed = b :: rest)
    (hh : ∀ x ∈ st1.hostUsed, x.addr ≠ b.addr) :
    reg .dev (dbm_mempool_free b.addr st1) = b :: st1.devReg := by
  have hnone : st1.hostUsed.find? (fun x => x.addr == b.addr) = none := by
    rw [List.find?_eq_none]
    intro x hx
    simpa using hh x hx
  have hfind : st1.devUsed.find? (fun x => x.addr == b.addr) = some b := by
    rw [hu, List.find?_cons_of_pos _ (by simp)]
  rw [mempool_free_dev hnone hfind]
  rfl

/-- Claim C1: for every sequence of pool operations on a domain, a request
that some pooled block of equal or larger recorded size can serve is
satisfied without a new raw allocation call (the raw-call counter and the
raw byte total are unchanged and the request succeeds), and in every
reachable state the total bytes obtained from the raw allocator equal the
sum of the successful miss allocations. -/
theorem C1_pool_reuse (sched : List Bool) (ops : List Op) (d : Domain)
    (s : Nat)
    (hex : ∃ b ∈ reg d (run ops (init sched)), s ≤ b.size) :
    ((pool_malloc d s (run ops (init sched))).1.isSome = true ∧
      (pool_malloc d s (run ops (init sched))).2.rawCalls
        = (run ops (init sched)).rawCalls ∧
      (pool_malloc d s (run ops (init sched))).2.rawBytes
        = (run ops (init sched)).rawBytes) ∧
    (run ops (init sched)).rawBytes
        = ((run ops (init sched)).missLog).sum := by
  constructor
  · obtain ⟨b, hf⟩ := malloc_find?_of_exists hex
    rw [pool_malloc_hit hf]
    refine ⟨rfl, ?_, ?_⟩
    · rw [setUsed_rawCalls, setReg_rawCalls]
    · rw [setUsed_rawBytes, setReg_rawBytes]
  · exact rawBytes_missLog_run ops (init sched) rfl

theorem C1_pool_reuse_witness :
    (∃ b ∈ reg .host (run [.malloc .host 8, .free 0] (init [])),
        5 ≤ b.size) ∧
    ((pool_malloc .host 5 (run [.malloc .host 8, .free 0] (init []))).1.isSome
        = true ∧
      (pool_malloc .host 5 (run [.malloc .host 8, .free 0] (init []))).2.rawCalls
        = (run [.malloc .host 8, .free 0] (init [])).rawCalls ∧
      (pool_malloc .host 5 (run [.malloc .host 8, .free 0] (init []))).2.rawBytes
        = (run [.malloc .host 8, .free 0] (init [])).rawBytes) ∧
    (run [.malloc .host 8, .free 0] (init [])).rawBytes
        = ((run [.malloc .host 8, .free 0] (init [])).missLog).sum :=
  ⟨by decide, C1_pool_reuse [] [.malloc .host 8, .free 0] .host 5 (by decide)⟩

/-- Claim C2: after every sequence of pool operations the state is
well-formed — in particular no address is simultaneously in a registry and
in an in-use metadata list — a pointer handed out by pool malloc is
removed from both registries at that moment and owned by the caller, and a
pool malloc never returns a pointer that is currently in use. -/
theorem C2_registry_exclusivity (sched : List Bool) (ops : List Op) :
    WF (run ops (init sched)) ∧
    (∀ (d : Domain) (s p : Nat) (st2 : PoolState),
      pool_malloc d s (run ops (init sched)) = (some p, st2) →
      p ∉ addrsOf st2.hostReg ∧ p ∉ addrsOf st2.devReg ∧
      p ∈ addrsOf (used d st2)) ∧
    (∀ (d : Domain) (s p : Nat),
      (p ∈ addrsOf (run ops (init sched)).hostUsed ∨
        p ∈ addrsOf (run ops (init sched)).devUsed) →
      (pool_malloc d s (run ops (init sched))).1 ≠ some p) := by
  refine ⟨wf_run sched ops, ?_, ?_⟩
  · intro d s p st2 h
    exact malloc_returns_spec (wf_run sched ops) h
  · intro d s p hp
    exact malloc_not_inuse (wf_run sched ops) hp

theorem C2_registry_exclusivity_witness :
    WF (run [.malloc .host 4] (init [])) ∧
    (1 ∉ addrsOf (pool_malloc .host 3 (run [.malloc .host 4] (init []))).2.hostReg ∧
      1 ∉ addrsOf (pool_malloc .host 3 (run [.malloc .host 4] (init []))).2.devReg ∧
      1 ∈ addrsOf (used .host (pool_malloc .host 3 (run [.malloc .host 4] (init []))).2)) ∧
    (pool_malloc .dev 1 (run [.malloc .host 4] (init []))).1 ≠ some 0 := by
  have h := C2_registry_exclusivity [] [.malloc .host 4]
  exact ⟨h.1,
    h.2.1 .host 3 1 (pool_malloc .host 3 (run [.malloc .host 4] (init []))).2
      (by decide),
    h.2.2 .dev 1 0 (Or.inl (by decide))⟩

/-- Claim C3: after pool clear both registries are empty, every previously
pooled block has been released via raw_free, and the next pool malloc on
either domain always takes the raw-allocation path: it performs exactly
one raw allocation call and, if anything, returns a fresh address rather
than a block pooled before the clear. -/
theorem C3_clear_semantics (st : PoolState) (d : Domain) (s : Nat) :
    (dbm_mempool_clear st).hostReg = [] ∧
    (dbm_mempool_clear st).devReg = [] ∧
    (dbm_mempool_clear st).rawFreed
      = st.rawFreed ++ addrsOf st.hostReg ++ addrsOf st.devReg ∧
    (pool_malloc d s (dbm_mempool_clear st)).2.rawCalls = st.rawCalls + 1 ∧
    ((pool_malloc d s (dbm_mempool_clear st)).1 = none ∨
      (pool_malloc d s (dbm_mempool_clear st)).1 = some st.nextAddr) := by
  have hmiss : (reg d (dbm_mempool_clear st)).find? (fits s) = none := by
    rw [reg_clear]
    rfl
  refine ⟨rfl, rfl, rfl, ?_, ?_⟩
  · rw [pool_malloc_miss hmiss]
    unfold rawAlloc
    by_cases hs : (dbm_mempool_clear st).schedule.headD true = true
    · rw [if_pos hs]
      rw [setUsed_rawCalls]
      rfl
    · rw [if_neg hs]
      rfl
  · rw [pool_malloc_miss hmiss]
    unfold rawAlloc
    by_cases hs : (dbm_mempool_clear st).schedule.headD true = true
    · rw [if_pos hs]
      exact Or.inr rfl
    · rw [if_neg hs]
      exact Or.inl rfl

/-- Claim C4: round-trip and oversized reuse — in any reachable state, if
a pool malloc of size S returns pointer p and p is immediately freed with
no intervening operation on that domain, the next pool malloc of any size
at most S returns exactly p (the freed block is re-issued, including when
the new request is smaller than the block's capacity). -/
theorem C4_roundtrip_reuse (sched : List Bool) (ops : List Op) (d : Domain)
    (S Sp : Nat) (hS : Sp ≤ S) (p : Nat) (st1 : PoolState)
    (h : pool_malloc d S (run ops (init sched)) = (some p, st1)) :
    (pool_malloc d Sp (dbm_mempool_free p st1)).1 = some p := by
  have hwf : WF (run ops (init sched)) := wf_run sched ops
  obtain ⟨hd1, hd2, hd3, hd4, hd5, hd6, hn1, hn2⟩ := wf_parts hwf
  cases hf : (reg d (run ops (init sched))).find? (fits S) with
  | some b =>
    rw [pool_malloc_hit hf] at h
    injection h with h1 h2
    injection h1 with h1
    subst h1
    have hbmem : b ∈ reg d (run ops (init sched)) :=
      List.mem_of_find?_eq_some hf
    have hfits : fits Sp b = true :=
      fits_iff.mpr (le_trans hS (fits_iff.mp (List.find?_some hf)))
    cases d with
    | host =>
      have hu : st1.hostUsed = b :: (run ops (init sched)).hostUsed := by
        rw [← h2]
        rfl
      exact malloc_after_free_head (free_cons_host hu) hfits
    | dev =>
      have hu : st1.devUsed = b :: (run ops (init sched)).devUsed := by
        rw [← h2]
        rfl
      have hh : ∀ x ∈ st1.hostUsed, x.addr ≠ b.addr := by
        rw [← h2]
        intro x hx heq
        exact hd4 (addr_mem_of_mem hbmem) (heq ▸ addr_mem_of_mem hx)
      exact malloc_after_free_head (free_cons_dev hu hh) hfits
  | none =>
    rw [pool_malloc_miss hf] at h
    unfold rawAlloc at h
    by_cases hs : (run ops (init sched)).schedule.headD true = true
    · rw [if_pos hs] at h
      injection h with h1 h2
      injection h1 with h1
      subst h1
      have hfits :
          fits Sp (⟨(run ops (init sched)).nextAddr, S⟩ : Block) = true :=
        fits_iff.mpr hS
      cases d with
      | host =>
        have hu : st1.hostUsed
            = (⟨(run ops (init sched)).nextAddr, S⟩ : Block)
                :: (run ops (init sched)).hostUsed := by
          rw [← h2]
          rfl
        exact malloc_after_free_head (free_cons_host hu) hfits
      | dev =>
        have hu : st1.devUsed
            = (⟨(run ops (init sched)).nextAddr, S⟩ : Block)
                :: (run ops (init sched)).devUsed := by
          rw [← h2]
          rfl
        have hh : ∀ x ∈ st1.hostUsed,
            x.addr ≠ (⟨(run ops (init sched)).nextAddr, S⟩ : Block).addr := by
          rw [← h2]
          intro x hx heq
          have hlt := bound_hostUsed hwf (addr_mem_of_mem hx)
          rw [heq] at hlt
          exact absurd hlt (lt_irrefl _)
        exact malloc_after_free_head (free_cons_dev hu hh) hfits
    · rw [if_neg hs] at h
      injection h with h1 h2
      exact Option.noConfusion h1

theorem C4_roundtrip_reuse_witness :
    5 ≤ 100 ∧
    pool_malloc .host 100 (run [] (init []))
      = (some 0, (pool_malloc .host 100 (run [] (init []))).2) ∧
    (pool_malloc .host 5 (dbm_mempool_free 0
        (pool_malloc .host 100 (run [] (init []))).2)).1 = some 0 :=
  ⟨by decide, by decide,
    C4_roundtrip_reuse [] [] .host 100 5 (by decide) 0
      (pool_malloc .host 100 (run [] (init []))).2 (by decide)⟩

/-- Claim C5: a request that misses the pool and whose raw allocation
fails returns the null sentinel; the registries, the in-use metadata, the
raw byte total, the miss log and the raw-freed log are all exactly as
before (no retry, no eviction, no free) — only the failure is consumed
from the schedule and the single raw call is counted. -/
theorem C5_failure_propagation (st : PoolState) (d : Domain) (s : Nat)
    (hmiss : (reg d st).find? (fits s) = none)
    (hfail : st.schedule.headD true = false) :
    pool_malloc d s st
      = (none, { st with schedule := st.schedule.tail,
                         rawCalls := st.rawCalls + 1 }) := by
  rw [pool_malloc_miss hmiss]
  unfold rawAlloc
  rw [if_neg (by rw [hfail]; exact Bool.false_ne_true)]

theorem C5_failure_propagation_witness :
    (reg .dev (init [false])).find? (fits 5) = none ∧
    (init [false]).schedule.headD true = false ∧
    pool_malloc .dev 5 (init [false])
      = (none, { init [false] with schedule := (init [false]).schedule.tail,
                                   rawCalls := (init [false]).rawCalls + 1 }) :=
  ⟨by decide, by decide,
    C5_failure_propagation (init [false]) .dev 5 (by decide) (by decide)⟩

/-- Claim C6: pool free is registration only — given only the pointer,
the implementation finds the block's domain and retained capacity in the
metadata, moves the block from the metadata to that domain's registry, and
changes nothing else (in particular no raw_free is performed: the
raw-freed log, the raw counters and the other domain are untouched, as the
record-update equations state). -/
theorem C6_free_registers_only (st : PoolState) (p : Nat) :
    (∀ b : Block, st.hostUsed.find? (fun x => x.addr == p) = some b →
      b.addr = p ∧
      dbm_mempool_free p st
        = { st with hostUsed := st.hostUsed.eraseP (fun x => x.addr == p),
                    hostReg := b :: st.hostReg }) ∧
    (∀ b : Block, st.hostUsed.find? (fun x => x.addr == p) = none →
      st.devUsed.find? (fun x => x.addr == p) = some b →
      b.addr = p ∧
      dbm_mempool_free p st
        = { st with devUsed := st.devUsed.eraseP (fun x => x.addr == p),
                    devReg := b :: st.devReg }) := by
  constructor
  · intro b hf
    refine ⟨?_, mempool_free_host hf⟩
    simpa using List.find?_some hf
  · intro b hf hg
    refine ⟨?_, mempool_free_dev hf hg⟩
    simpa using List.find?_some hg

theorem C6_free_registers_only_witness :
    ((⟨[], [], [⟨3, 7⟩], [], 4, [], 1, 7, [7], []⟩ : PoolState).hostUsed.find?
        (fun x => x.addr == 3) = some ⟨3, 7⟩) ∧
    dbm_mempool_free 3 ⟨[], [], [⟨3, 7⟩], [], 4, [], 1, 7, [7], []⟩
      = ⟨[⟨3, 7⟩], [], [], [], 4, [], 1, 7, [7], []⟩ := by
  have h := (C6_free_registers_only
    ⟨[], [], [⟨3, 7⟩], [], 4, [], 1, 7, [7], []⟩ 3).1 ⟨3, 7⟩ (by decide)
  exact ⟨by decide, h.2.trans (by decide)⟩



theorem c_malloc_frame (st : CMem) (N : Nat) :
    (c_malloc st N).2.poolHostReg = st.poolHostReg ∧
    (c_malloc st N).2.poolDevReg = st.poolDevReg ∧
    ((c_malloc st N).1 = none ∨ (c_malloc st N).1 = some st.nextAddr) := by
  unfold c_malloc
  by_cases hs : st.schedule.headD true = true
  · rw [if_pos hs]
    exact ⟨rfl, rfl, Or.inr rfl⟩
  · rw [if_neg hs]
    exact ⟨rfl, rfl, Or.inl rfl⟩

theorem c_calloc_frame (st : CMem) (nitems N : Nat) :
    (c_calloc st nitems N).2.poolHostReg = st.poolHostReg ∧
    (c_calloc st nitems N).2.poolDevReg = st.poolDevReg ∧
    ((c_calloc st nitems N).1 = none ∨
      (c_calloc st nitems N).1 = some st.nextAddr) := by
  unfold c_calloc
  by_cases hov : SIZE_BOUND ≤ nitems * N
  · rw [if_pos hov]
    exact ⟨rfl, rfl, Or.inl rfl⟩
  · rw [if_neg hov]
    by_cases hs : st.schedule.headD true = true
    · rw [if_pos hs]
      exact ⟨rfl, rfl, Or.inr rfl⟩
    · rw [if_neg hs]
      exact ⟨rfl, rfl, Or.inl rfl⟩

theorem c_realloc_none (st : CMem) (p N : Nat)
    (hf : st.blocks.find? (fun x => x.addr == p) = none) :
    c_realloc st p N = (none, st) := by
  unfold c_realloc
  rw [hf]

theorem c_realloc_found (st : CMem) (p N : Nat) (b : CBlock)
    (hf : st.blocks.find? (fun x => x.addr == p) = some b) :
    c_realloc st p N =
      if st.schedule.headD true then
        (some st.nextAddr,
          { st with
              blocks := ⟨st.nextAddr,
                          b.bytes.take N
                            ++ List.replicate (N - b.bytes.length) junkByte⟩
                        :: st.blocks.eraseP (fun x => x.addr == p),
              nextAddr := st.nextAddr + 1,
              schedule := st.schedule.tail })
      else
        (none, { st with schedule := st.schedule.tail }) := by
  unfold c_realloc
  rw [hf]

theorem c_realloc_frame (st : CMem) (p N : Nat) :
    (c_realloc st p N).2.poolHostReg = st.poolHostReg ∧
    (c_realloc st p N).2.poolDevReg = st.poolDevReg ∧
    ((c_realloc st p N).1 = none ∨
      (c_realloc st p N).1 = some st.nextAddr) := by
  cases hf : st.blocks.find? (fun x => x.addr == p) with
  | none =>
    rw [c_realloc_none st p N hf]
    exact ⟨rfl, rfl, Or.inl rfl⟩
  | some b =>
    rw [c_realloc_found st p N b hf]
    by_cases hs : st.schedule.headD true = true
    · rw [if_pos hs]
      exact ⟨rfl, rfl, Or.inr rfl⟩
    · rw [if_neg hs]
      exact ⟨rfl, rfl, Or.inl rfl⟩

/-- Claim C7: whenever the typed calloc wrapper succeeds, the returned
region consists of exactly `nitems * N` bytes, every one of them zero
(and the product was representable in the size type). -/
theorem C7_calloc_zero_init (st : CMem) (nitems N : Nat) (q : Nat)
    (st2 : CMem) (h : dbm_mem_calloc st nitems N = (some q, st2)) :
    nitems * N < SIZE_BOUND ∧
    contentsAt st2 q = some (List.replicate (nitems * N) 0) := by
  unfold dbm_mem_calloc c_calloc at h
  by_cases hov : SIZE_BOUND ≤ nitems * N
  · rw [if_pos hov] at h
    injection h with h1 h2
    exact Option.noConfusion h1
  · rw [if_neg hov] at h
    by_cases hs : st.schedule.headD true = true
    · rw [if_pos hs] at h
      injection h with h1 h2
      injection h1 with h1
      subst h1
      subst h2
      refine ⟨Nat.lt_of_not_le hov, ?_⟩
      unfold contentsAt
      rw [List.find?_cons_of_pos _ (by simp)]
      rfl
    · rw [if_neg hs] at h
      injection h with h1 h2
      exact Option.noConfusion h1

theorem C7_calloc_zero_init_witness :
    dbm_mem_calloc ⟨[], 0, [], [], []⟩ 3 2
      = (some 0, (dbm_mem_calloc ⟨[], 0, [], [], []⟩ 3 2).2) ∧
    3 * 2 < SIZE_BOUND ∧
    contentsAt (dbm_mem_calloc ⟨[], 0, [], [], []⟩ 3 2).2 0
      = some (List.replicate (3 * 2) 0) := by
  have h := C7_calloc_zero_init ⟨[], 0, [], [], []⟩ 3 2 0
    (dbm_mem_calloc ⟨[], 0, [], [], []⟩ 3 2).2 (by decide)
  exact ⟨by decide, h.1, h.2⟩

/-- Claim C8: the typed realloc wrapper preserves the first
`min (old size) (new size)` bytes across a resize; on failure it returns
the null sentinel and the original allocation is untouched and still
readable; and in all cases it is a direct passthrough to the C library's
realloc that leaves both pool registries unchanged. -/
theorem C8_realloc_contract (st : CMem) (p N : Nat) (blk : CBlock)
    (hfind : st.blocks.find? (fun x => x.addr == p) = some blk) :
    (∀ (q : Nat) (st2 : CMem), dbm_mem_realloc st p N = (some q, st2) →
      ∃ nb : List Nat, contentsAt st2 q = some nb ∧ nb.length = N ∧
        nb.take (min blk.bytes.length N)
          = blk.bytes.take (min blk.bytes.length N)) ∧
    (∀ st2 : CMem, dbm_mem_realloc st p N = (none, st2) →
      st2.blocks = st.blocks ∧ contentsAt st2 p = some blk.bytes) ∧
    (dbm_mem_realloc st p N).2.poolHostReg = st.poolHostReg ∧
    (dbm_mem_realloc st p N).2.poolDevReg = st.poolDevReg ∧
    dbm_mem_realloc st p N = c_realloc st p N := by
  refine ⟨?_, ?_, (c_realloc_frame st p N).1, (c_realloc_frame st p N).2.1, rfl⟩
  · intro q st2 h
    rw [show dbm_mem_realloc st p N = c_realloc st p N from rfl,
      c_realloc_found st p N blk hfind] at h
    by_cases hs : st.schedule.headD true = true
    · rw [if_pos hs] at h
      injection h with h1 h2
      injection h1 with h1
      subst h1
      subst h2
      refine ⟨blk.bytes.take N
        ++ List.replicate (N - blk.bytes.length) junkByte, ?_, ?_, ?_⟩
      · unfold contentsAt
        rw [List.find?_cons_of_pos _ (by simp)]
        rfl
      · rw [List.length_append, List.length_take, List.length_replicate]
        omega
      · rw [List.take_append_eq_append_take, List.take_take, List.length_take]
        have e1 : min (min blk.bytes.length N) N = min blk.bytes.length N := by
          omega
        have e2 : min blk.bytes.length N - min N blk.bytes.length = 0 := by
          omega
        rw [e1, e2]
        simp
    · rw [if_neg hs] at h
      injection h with h1 h2
      exact Option.noConfusion h1
  · intro st2 h
    rw [show dbm_mem_realloc st p N = c_realloc st p N from rfl,
      c_realloc_found st p N blk hfind] at h
    by_cases hs : st.schedule.headD true = true
    · rw [if_pos hs] at h
      injection h with h1 h2
      exact Option.noConfusion h1
    · rw [if_neg hs] at h
      injection h with h1 h2
      subst h2
      refine ⟨rfl, ?_⟩
      unfold contentsAt
      rw [show ({ st with schedule := st.schedule.tail } : CMem).blocks
          = st.blocks from rfl, hfind]
      rfl

theorem C8_realloc_contract_witness :
    (((⟨[⟨5, [1, 2, 3]⟩], 6, [], [], []⟩ : CMem)).blocks.find?
        (fun x => x.addr == 5) = some ⟨5, [1, 2, 3]⟩) ∧
    dbm_mem_realloc ⟨[⟨5, [1, 2, 3]⟩], 6, [], [], []⟩ 5 2
      = (some 6, (dbm_mem_realloc ⟨[⟨5, [1, 2, 3]⟩], 6, [], [], []⟩ 5 2).2) ∧
    (∃ nb : List Nat,
      contentsAt (dbm_mem_realloc ⟨[⟨5, [1, 2, 3]⟩], 6, [], [], []⟩ 5 2).2 6
        = some nb ∧ nb.length = 2 ∧
      nb.take (min ([1, 2, 3] : List Nat).length 2)
        = ([1, 2, 3] : List Nat).take (min ([1, 2, 3] : List Nat).length 2)) := by
  have h := C8_realloc_contract ⟨[⟨5, [1, 2, 3]⟩], 6, [], [], []⟩ 5 2
    ⟨5, [1, 2, 3]⟩ (by decide)
  exact ⟨by decide, by decide,
    h.1 6 (dbm_mem_realloc ⟨[⟨5, [1, 2, 3]⟩], 6, [], [], []⟩ 5 2).2 (by decide)⟩

/-- Claim C9 counterexample: with element count 2^63 + 1 and element size
2 the product exceeds the size type's range, yet the typed alloc wrapper,
invoked with the wrapped-around byte count that a call site would compute,
does not fail: it returns a non-null pointer to a region of only 2 bytes
instead of detecting the overflow. -/
theorem C9_counterexample :
    SIZE_BOUND < (2 ^ 63 + 1) * 2 ∧
    ((2 ^ 63 + 1) * 2) % SIZE_BOUND = 2 ∧
    (dbm_mem_alloc ⟨[], 0, [], [], []⟩ (((2 ^ 63 + 1) * 2) % SIZE_BOUND)).1
      = some 0 ∧
    contentsAt (dbm_mem_alloc ⟨[], 0, [], [], []⟩
        (((2 ^ 63 + 1) * 2) % SIZE_BOUND)).2 0
      = some (List.replicate 2 junkByte) := by
  decide

/-- Claim C9 amended: only the calloc wrapper involves a count-times-size
product, and its overflow check happens inside the C library's calloc,
which fails (returns null, state unchanged) when the product exceeds the
size type's range; dbm_mem_alloc and dbm_mem_realloc take a single
already-computed byte count and pass it to malloc and realloc unchanged,
performing no product computation and no overflow check of their own. -/
theorem C9_amended_overflow (st : CMem) (nitems N p : Nat)
    (hov : SIZE_BOUND ≤ nitems * N) :
    dbm_mem_calloc st nitems N = (none, st) ∧
    dbm_mem_alloc st N = c_malloc st N ∧
    dbm_mem_realloc st p N = c_realloc st p N := by
  refine ⟨?_, rfl, rfl⟩
  unfold dbm_mem_calloc c_calloc
  rw [if_pos hov]

theorem C9_amended_overflow_witness :
    SIZE_BOUND ≤ (2 ^ 63 + 1) * 2 ∧
    dbm_mem_calloc ⟨[], 0, [], [], []⟩ (2 ^ 63 + 1) 2
      = (none, ⟨[], 0, [], [], []⟩) :=
  ⟨by decide,
    (C9_amended_overflow ⟨[], 0, [], [], []⟩ (2 ^ 63 + 1) 2 0 (by decide)).1⟩

/-- Claim C10: the typed wrappers are direct passthroughs — dbm_mem_alloc
invokes malloc with exactly its byte argument (no multiplication),
dbm_mem_calloc invokes calloc with its two arguments, dbm_mem_realloc
invokes realloc with its pointer and byte arguments — they leave both pool
registries unchanged, and any memory they return is a fresh heap address,
never one drawn from a pool registry. -/
theorem C10_wrappers_bypass_pool (st : CMem) (N nitems p : Nat) :
    dbm_mem_alloc st N = c_malloc st N ∧
    dbm_mem_calloc st nitems N = c_calloc st nitems N ∧
    dbm_mem_realloc st p N = c_realloc st p N ∧
    (dbm_mem_alloc st N).2.poolHostReg = st.poolHostReg ∧
    (dbm_mem_alloc st N).2.poolDevReg = st.poolDevReg ∧
    (dbm_mem_calloc st nitems N).2.poolHostReg = st.poolHostReg ∧
    (dbm_mem_calloc st nitems N).2.poolDevReg = st.poolDevReg ∧
    (dbm_mem_realloc st p N).2.poolHostReg = st.poolHostReg ∧
    (dbm_mem_realloc st p N).2.poolDevReg = st.poolDevReg ∧
    ((dbm_mem_alloc st N).1 = none ∨
      (dbm_mem_alloc st N).1 = some st.nextAddr) ∧
    ((dbm_mem_calloc st nitems N).1 = none ∨
      (dbm_mem_calloc st nitems N).1 = some st.nextAddr) ∧
    ((dbm_mem_realloc st p N).1 = none ∨
      (dbm_mem_realloc st p N).1 = some st.nextAddr) :=
  ⟨rfl, rfl, rfl,
    (c_malloc_frame st N).1, (c_malloc_frame st N).2.1,
    (c_calloc_frame st nitems N).1, (c_calloc_frame st nitems N).2.1,
    (c_realloc_frame st p N).1, (c_realloc_frame st p N).2.1,
    (c_malloc_frame st N).2.2, (c_calloc_frame st nitems N).2.2,
    (c_realloc_frame st p N).2.2⟩

end DbmMempool
